import Mathlib

/-!
Verification of the audio_converter repository core: the bounded elastic
work pool (WorkPool in cmd/export_audio_tree), the two-pass tree walker
(Exporter.Run / visitDir / visitFile), and the pure classification and
copy/convert logic (IsTrashFile, IsMediaFile, Exporter.Copy,
Exporter.Convert).  Definitions are shallow embeddings of the Go source;
machine integers are modelled as Nat, Go byte strings as Lean String,
channels as lists, and goroutine interleavings as explicit step relations.
-/

set_option maxHeartbeats 1000000

/-! ## Path helpers, modelling Go path and filepath functions on slash paths -/

/-- Model of Go filepath.Ext: scan the path from the end; stop at a path
separator with empty result, or return the suffix starting at the last dot.
The first argument is the reversed character list of the path, the second
accumulates the suffix seen so far in forward order. -/
def goExtRev : List Char → List Char → String
  | [], _ => ""
  | c :: rest, acc =>
    if c = '/' then ""
    else if c = '.' then String.mk (c :: acc)
    else goExtRev rest (c :: acc)

/-- Model of Go filepath.Ext for slash-separated paths. -/
def goExt (p : String) : String := goExtRev p.data.reverse []

/-- Model of Go filepath.Base for slash-separated paths: strip trailing
separators, then keep the last element; empty input gives dot, an all
separator input gives the separator. -/
def goBase (p : String) : String :=
  if p = "" then "."
  else
    let r := p.data.reverse.dropWhile (fun c => c = '/')
    let b := r.takeWhile (fun c => c ≠ '/')
    if b = [] then "/" else String.mk b.reverse

/-- ASCII lower casing of one character, as Go strings.ToLower acts on the
ASCII subset relevant to extensions. -/
def lowerChar (c : Char) : Char :=
  if 65 ≤ c.toNat ∧ c.toNat ≤ 90 then Char.ofNat (c.toNat + 32) else c

/-- ASCII lower casing of a string. -/
def lowerStr (s : String) : String := String.mk (s.data.map lowerChar)

/-! ## internal/filesystem/cleaner.go and internal/ffmpeg classification -/

/-- Model of Go strings.HasPrefix: s begins with the marker text. -/
def beginsWith (s marker : String) : Bool :=
  s.data.take marker.data.length = marker.data

/-- Embedding of filesystem.IsTrashFile: true when the base name is the
Finder metadata file .DS_Store or an Apple Double file beginning with the
marker "._". -/
def IsTrashFile (name : String) : Bool :=
  let base := goBase name
  base = ".DS_Store" || beginsWith base "._"

/-- Embedding of ffmpeg.InputExtensions: the supported input format
extensions. -/
def InputExtensions : List String := [".flac", ".m4a", ".m4r", ".mp3", ".wav"]

/-- Embedding of ffmpeg.IsMediaFile: true if the extension of name is one of
InputExtensions, compared exactly. -/
def IsMediaFile (name : String) : Bool := InputExtensions.contains (goExt name)

/-- Formats accepted by ExporterOptions.Validate after lower casing. -/
def validFormats : List String := ["flac", "m4a", "m4r", "mp3"]

/-! ## Exporter model (second Exporter in the repository, the pooled one) -/

/-- The ExporterOptions fields the core reads: the target format (already
validated and lower cased by the options collaborator), the copy-unknown
policy and the no-clobber policy. -/
structure EOpts where
  Format : String
  CopyUnknown : Bool
  NoClobber : Bool
deriving DecidableEq, Repr

/-- One entry of the input tree in fs.WalkDir order: its slash path relative
to the input root, whether it is a directory, and its bytes when a file. -/
structure Entry where
  path : String
  isDir : Bool
  data : String
deriving DecidableEq, Repr

/-- Content of an output file: either bytes streamed by filesystem.CopyFile,
or the result of invoking the external transcoder on the source bytes for a
target format.  The transcoder output is opaque, so it is recorded
symbolically. -/
inductive OutData where
  | copied (bytes : String)
  | transcoded (fmt : String) (srcBytes : String)
deriving DecidableEq, Repr

/-- Existence check on the modelled output file system, as OutRoot.Stat. -/
def fsHas (out : List (String × OutData)) (p : String) : Bool :=
  out.any (fun e => e.1 = p)

/-- Writing a file on the modelled output file system: os.Create truncates an
existing file, otherwise the file is appended to the listing. -/
def fsWrite (out : List (String × OutData)) (p : String) (d : OutData) :
    List (String × OutData) :=
  if fsHas out p then out.map (fun e => if e.1 = p then (p, d) else e)
  else out ++ [(p, d)]

/-- Embedding of Exporter.Copy: with the no-clobber policy set and an
existing destination the operation silently returns nil, otherwise the
source bytes are streamed to the destination.  The second component is the
returned error, always nil here because filesystem.CopyFile failures are
external I/O faults outside the model. -/
def CopyOpE (opts : EOpts) (out : List (String × OutData)) (path : String)
    (data : String) : List (String × OutData) × Option String :=
  if opts.NoClobber ∧ fsHas out path then (out, none)
  else (fsWrite out path (.copied data), none)

/-- Output file system after Exporter.Copy. -/
def CopyOp (opts : EOpts) (out : List (String × OutData)) (path : String)
    (data : String) : List (String × OutData) :=
  (CopyOpE opts out path data).1

/-- Destination path of a conversion: the source path with its extension
replaced by the target extension, as path[:len(path)-len(oldExt)] + newExt. -/
def convertedPath (path oldExt newExt : String) : String :=
  String.mk (path.data.take (path.data.length - oldExt.data.length)) ++ newExt

/-- Embedding of Exporter.Convert: when the source extension equals the
target extension the conversion degrades to Exporter.Copy, otherwise the
external transcoder is invoked writing to the path with substituted
extension. -/
def ConvertOp (opts : EOpts) (out : List (String × OutData)) (path : String)
    (data : String) : List (String × OutData) :=
  let oldExt := goExt path
  let newExt := "." ++ opts.Format
  if oldExt = newExt then CopyOp opts out path data
  else fsWrite out (convertedPath path oldExt newExt) (.transcoded opts.Format data)

/-- Action chosen by Exporter.visitFile for one entry. -/
inductive FAction where
  | skip
  | convertTask
  | copyTask
deriving DecidableEq, Repr

/-- Embedding of Exporter.visitFile (the classification part): directories
and the root are skipped, trash files are skipped, media files become
convert tasks, and other files become copy tasks exactly when the
copy-unknown policy is set. -/
def visitFile (opts : EOpts) (path : String) (isDir : Bool) : FAction :=
  if isDir then .skip
  else if path = "." then .skip
  else if IsTrashFile path then .skip
  else if IsMediaFile path then .convertTask
  else if opts.CopyUnknown ∧ ¬isDir then .copyTask
  else .skip

/-- Embedding of Exporter.visitDir restricted to which directories are
created: every directory of the input tree except the root. -/
def dirPaths (entries : List Entry) : List String :=
  entries.filterMap (fun e => if e.isDir = true ∧ e.path ≠ "." then some e.path else none)

/-- Paths of the entries for which visitFile submits a task to the pool. -/
def taskPaths (opts : EOpts) (entries : List Entry) : List String :=
  entries.filterMap
    (fun e => if visitFile opts e.path e.isDir = .skip then none else some e.path)

/-- Executing the task submitted for one entry against the output file
system. -/
def execTask (opts : EOpts) (out : List (String × OutData)) (e : Entry) :
    List (String × OutData) :=
  match visitFile opts e.path e.isDir with
  | .skip => out
  | .convertTask => ConvertOp opts out e.path e.data
  | .copyTask => CopyOp opts out e.path e.data

/-- Output files produced by the file pass over the whole tree, starting
from an empty output root. -/
def exportFiles (opts : EOpts) (entries : List Entry) : List (String × OutData) :=
  entries.foldl (execTask opts) []

/-- Result of an export run: directories created by the first pass and files
written by the second pass. -/
structure OutFS where
  dirs : List String
  files : List (String × OutData)
deriving DecidableEq, Repr

/-- Embedding of the full Exporter.Run output on the modelled tree. -/
def exportTree (opts : EOpts) (entries : List Entry) : OutFS :=
  ⟨dirPaths entries, exportFiles opts entries⟩

/-- Modelled from the spec: a pure directory-structure copy of the input
tree, giving byte-identical files at the same relative paths together with
the mirrored directories.  This is the comparison point of the round-trip
claim, not code of the repository. -/
def pureCopy (entries : List Entry) : OutFS :=
  ⟨entries.filterMap (fun e => if e.isDir = true ∧ e.path ≠ "." then some e.path else none),
   entries.filterMap
     (fun e => if e.isDir = false then some (e.path, OutData.copied e.data) else none)⟩

/-! ## WorkPool model (cmd/export_audio_tree workpool)

The pool state carries the Go struct fields size (bookkeeping counter of
goroutines, guarded by the mutex), limit and buffer, together with the
observable runtime state: the number of live worker loops, the cancellation
flag of the context, whether the task channel has been closed, the buffered
task queue, the tasks currently executing, the tasks that have finished and
the tasks discarded by the drain loop of Stop.  Tasks are identified by
natural numbers. -/

structure WorkPool where
  limit : Nat
  buffer : Nat
  size : Nat
  workers : Nat
  cancelled : Bool
  queueClosed : Bool
  queue : List Nat
  running : List Nat
  done : List Nat
  discarded : List Nat
deriving DecidableEq, Repr

/-- Embedding of NewWorkPool: limit 0 defaults to the host CPU count and
buffer 0 defaults to max limit 100; the pool starts with no workers. -/
def NewWorkPool (ncpu limit buffer : Nat) : WorkPool :=
  let l := if limit = 0 then ncpu else limit
  let b := if buffer = 0 then max l 100 else buffer
  { limit := l, buffer := b, size := 0, workers := 0, cancelled := false,
    queueClosed := false, queue := [], running := [], done := [], discarded := [] }

/-- Embedding of WorkPool.Remaining: free queue capacity. -/
def WorkPool.Remaining (s : WorkPool) : Nat := s.buffer - s.queue.length

/-- Embedding of WorkPool.init: fails when the pool is running, otherwise
creates a fresh open queue and spawns one worker per CPU up to the limit. -/
def WorkPool.init (ncpu : Nat) (s : WorkPool) : Option WorkPool :=
  if s.size ≠ 0 then none
  else some { s with queue := [], queueClosed := false,
                     size := min ncpu s.limit, workers := min ncpu s.limit }

/-- Embedding of WorkPool.Start, which takes the mutex and calls init. -/
def WorkPool.Start (ncpu : Nat) (s : WorkPool) : Option WorkPool :=
  s.init ncpu

/-- Embedding of WorkPool.expand: fails when the pool is not running; no
growth at the limit or while the queue has free space; otherwise spawns
min 4 (limit - size) additional workers. -/
def WorkPool.expand (s : WorkPool) : Option WorkPool :=
  if s.size = 0 then none
  else if s.size = s.limit then some s
  else if 0 < s.Remaining then some s
  else some { s with size := s.size + min 4 (s.limit - s.size),
                     workers := s.workers + min 4 (s.limit - s.size) }

/-- Embedding of WorkPool.Add: expand, then send the task on the queue. -/
def WorkPool.Add (s : WorkPool) (t : Nat) : Option WorkPool :=
  (s.expand).map (fun s2 => { s2 with queue := s2.queue ++ [t] })

/-- One step of a worker loop.  The select statement of the Go worker makes
a uniformly random choice among the READY branches: receiving from the
buffered queue is ready whenever the queue holds a task, even after close or
cancellation, the cancellation branch is ready once the context is
cancelled, and a closed drained queue delivers the zero value ending the
loop.  A task in flight can finish at any time.  Idle capacity is needed to
take a task or to exit: a worker occupied by a running task first finishes
it. -/
inductive WStep : WorkPool → WorkPool → Prop where
  | take (s u : WorkPool) (t : Nat) (q2 : List Nat) :
      s.queue = t :: q2 →
      s.running.length < s.workers →
      u = { s with queue := q2, running := s.running ++ [t] } →
      WStep s u
  | fin (s u : WorkPool) (t : Nat) (l1 l2 : List Nat) :
      s.running = l1 ++ t :: l2 →
      u = { s with running := l1 ++ l2, done := s.done ++ [t] } →
      WStep s u
  | exitCancel (s u : WorkPool) :
      s.cancelled = true →
      s.running.length < s.workers →
      u = { s with workers := s.workers - 1 } →
      WStep s u
  | exitClosed (s u : WorkPool) :
      s.queueClosed = true →
      s.queue = [] →
      s.running.length < s.workers →
      u = { s with workers := s.workers - 1 } →
      WStep s u

/-- Reflexive transitive closure of worker steps. -/
inductive WSteps : WorkPool → WorkPool → Prop where
  | refl (s : WorkPool) : WSteps s s
  | tail (s t u : WorkPool) : WSteps s t → WStep t u → WSteps s u

/-- Effect of p.cancel(): the context of every worker is cancelled. -/
def cancelStep (s : WorkPool) : WorkPool := { s with cancelled := true }

/-- Effect of close(p.queue) in Wait. -/
def closeStep (s : WorkPool) : WorkPool := { s with queueClosed := true }

/-- Bookkeeping tail of Stop after wg.Wait returns: size is reset, the queue
is closed and the drain loop discards every task still buffered. -/
def stopFinalize (s : WorkPool) : WorkPool :=
  { s with size := 0, queueClosed := true,
           discarded := s.discarded ++ s.queue, queue := [] }

/-- Embedding of WorkPool.Stop: fails (panics) when already stopped;
otherwise the context is cancelled, the workers run some interleaving of
steps until every loop has exited, and the queue is closed and drained. -/
def StopExec (s s2 : WorkPool) : Prop :=
  0 < s.size ∧ ∃ m, WSteps (cancelStep s) m ∧ m.workers = 0 ∧ s2 = stopFinalize m

/-- Embedding of WorkPool.Wait: closing an already closed queue panics;
otherwise the queue is closed, the workers run until every loop has exited,
and init restarts the pool with a fresh queue and initial workers. -/
def WaitExec (ncpu : Nat) (s s2 : WorkPool) : Prop :=
  s.queueClosed = false ∧
  ∃ m, WSteps (closeStep s) m ∧ m.workers = 0 ∧
    WorkPool.init ncpu { m with size := 0 } = some s2

/-- One public transition of the pool lifecycle, or one worker step. -/
inductive PoolTx (ncpu : Nat) : WorkPool → WorkPool → Prop where
  | start (s s2 : WorkPool) : s.Start ncpu = some s2 → PoolTx ncpu s s2
  | add (s s2 : WorkPool) (t : Nat) : s.Add t = some s2 → PoolTx ncpu s s2
  | wait (s s2 : WorkPool) : WaitExec ncpu s s2 → PoolTx ncpu s s2
  | stop (s s2 : WorkPool) : StopExec s s2 → PoolTx ncpu s s2
  | work (s s2 : WorkPool) : WStep s s2 → PoolTx ncpu s s2

/-- Sequences of pool transitions. -/
inductive PoolSeq (ncpu : Nat) : WorkPool → WorkPool → Prop where
  | refl (s : WorkPool) : PoolSeq ncpu s s
  | tail (s t u : WorkPool) : PoolSeq ncpu s t → PoolTx ncpu t u → PoolSeq ncpu s u

/-! ## Interleaving model of one Add racing one Stop

WorkPool.Add runs in two pieces: expand takes the mutex and checks the size
field, then, after the mutex is released, the task is sent on the queue.
Stop holds the mutex from its first line to its last, but its body is not
atomic: it cancels the context, then blocks in wg.Wait while the worker
loops keep stepping (a cancelled worker may still receive and execute a
queued task, since its select chooses randomly among ready branches), and
only once every worker has exited does it reset size, close the queue and
drain it.  Worker loops never touch the mutex.  The schedule is the
sequence of thread choices; each choice runs the next atomic piece of that
thread. -/

/-- Program counter of the thread calling Add. -/
inductive AdderPc where
  | idle
  | ready
  | enq
  | failedNotRunning
  | panicked
deriving DecidableEq, Repr

/-- Program counter of the thread calling Stop: before the call, inside the
body blocked in wg.Wait with the mutex held, or returned. -/
inductive StopperPc where
  | before
  | waiting
  | done
deriving DecidableEq, Repr

/-- Joint state of the pool fields relevant to the race, the worker loops,
the Add thread and the Stop thread. -/
structure RaceSys where
  size : Nat
  workers : Nat
  cancelled : Bool
  queueClosed : Bool
  queue : List Nat
  discarded : List Nat
  done : List Nat
  adder : AdderPc
  stopper : StopperPc
deriving DecidableEq, Repr

/-- Scheduler choice: which thread performs its next atomic piece. -/
inductive RaceChoice where
  | adderStep
  | stopperStep
  | workerTake
  | workerExit
deriving DecidableEq, Repr

/-- Identifier of the task the racing Add carries. -/
def adderTaskId : Nat := 99

/-- One atomic piece.  The Add thread first runs expand, which needs the
mutex and therefore blocks while Stop is inside its body; expand panics
into the failed state when size is 0 and otherwise leaves Add ready to
send.  The send runs without the mutex and panics when the queue has been
closed.  The Stop thread first takes the mutex, panics if the pool is
already stopped, and otherwise cancels the context and blocks in wg.Wait;
once every worker has exited it resets size, closes the queue, drains it
and releases the mutex.  A worker with a non-empty queue may receive and
execute the head task at any time, even after cancellation or close, and a
worker may exit once cancelled or once the queue is closed and drained. -/
def raceStep (s : RaceSys) : RaceChoice → RaceSys
  | .adderStep =>
    match s.adder with
    | .idle =>
      match s.stopper with
      | .waiting => s
      | .before =>
          if s.size = 0 then { s with adder := .failedNotRunning }
          else { s with adder := .ready }
      | .done =>
          if s.size = 0 then { s with adder := .failedNotRunning }
          else { s with adder := .ready }
    | .ready =>
        if s.queueClosed then { s with adder := .panicked }
        else { s with queue := s.queue ++ [adderTaskId], adder := .enq }
    | _ => s
  | .stopperStep =>
    match s.stopper with
    | .before =>
        if s.size = 0 then { s with stopper := .done }
        else { s with cancelled := true, stopper := .waiting }
    | .waiting =>
        if s.workers = 0 then
          { s with size := 0, queueClosed := true,
                   discarded := s.discarded ++ s.queue, queue := [],
                   stopper := .done }
        else s
    | .done => s
  | .workerTake =>
    match s.queue with
    | [] => s
    | t :: rest =>
        if 0 < s.workers then { s with queue := rest, done := s.done ++ [t] }
        else s
  | .workerExit =>
    if 0 < s.workers ∧ (s.cancelled = true ∨ (s.queueClosed = true ∧ s.queue = [])) then
      { s with workers := s.workers - 1 }
    else s

/-- Run a schedule from a state. -/
def runRace (s : RaceSys) (l : List RaceChoice) : RaceSys :=
  l.foldl raceStep s

/-- Initial state of the race: a running pool with bookkeeping size n and w
live workers, an open empty queue, the Add thread before expand and the
Stop thread before its body. -/
def raceInit (n w : Nat) : RaceSys :=
  { size := n, workers := w, cancelled := false, queueClosed := false,
    queue := [], discarded := [], done := [], adder := .idle,
    stopper := .before }

/-! ## Trace model of Exporter.Run for the two-pass barrier -/

/-- Events of an export run: directory creation during the first pass, the
start of the pool, submission of the task for a file, and execution of that
task by a worker. -/
inductive Ev where
  | mkdir (p : String)
  | poolStart
  | submit (p : String)
  | exec (p : String)
deriving DecidableEq, Repr

/-- Events of the second walk running concurrently with the workers: the
schedule decides at each step whether the walking thread submits the next
task or a worker executes a pending one; when the schedule ends, the walk
submits whatever is left and Wait drains every pending task. -/
def fileEvents : List Bool → List String → List String → List Ev
  | [], ts, pend => ts.map Ev.submit ++ (pend ++ ts).map Ev.exec
  | b :: rest, ts, pend =>
    match ts, pend with
    | [], [] => []
    | [], p :: ps => Ev.exec p :: fileEvents rest [] ps
    | t :: ts2, [] => Ev.submit t :: fileEvents rest ts2 [t]
    | t :: ts2, p :: ps =>
      if b then Ev.submit t :: fileEvents rest ts2 ((p :: ps) ++ [t])
      else Ev.exec p :: fileEvents rest (t :: ts2) ps

/-- Trace of Exporter.Run: the synchronous directory pass, then the pool is
started, then the file pass interleaved with worker execution under an
arbitrary schedule, then the Wait drain. -/
def runTrace (opts : EOpts) (entries : List Entry) (sched : List Bool) : List Ev :=
  (dirPaths entries).map Ev.mkdir ++ Ev.poolStart :: fileEvents sched (taskPaths opts entries) []

/-! ## Shared helper lemmas -/

/-- Every supported input extension is already lower case. -/
lemma inputExtensions_lower : ∀ x ∈ InputExtensions, lowerStr x = x := by decide

/-- Membership form of IsMediaFile. -/
lemma isMediaFile_iff (name : String) :
    IsMediaFile name = true ↔ goExt name ∈ InputExtensions := by
  simp [IsMediaFile]

/-! ## Claim C3: the growth step of Add -/

/-- Claim C3: on a running pool the growth step spawns no workers when size
equals the limit, spawns no workers when the queue has a free slot, and
spawns exactly min 4 (limit - size) workers when the queue is full and size
is below the limit. -/
theorem claim_C3 (s : WorkPool) (h : 0 < s.size) :
    (s.size = s.limit → s.expand = some s) ∧
    (0 < s.Remaining → ∃ s2, s.expand = some s2 ∧ s2.size = s.size) ∧
    (s.Remaining = 0 → s.size < s.limit →
      s.expand = some { s with size := s.size + min 4 (s.limit - s.size),
                               workers := s.workers + min 4 (s.limit - s.size) }) := by
  have hne : ¬ s.size = 0 := Nat.pos_iff_ne_zero.mp h
  refine ⟨?_, ?_, ?_⟩
  · intro he
    have hl0 : ¬ s.limit = 0 := he ▸ hne
    simp [WorkPool.expand, hne, he, hl0]
  · intro hr
    by_cases he : s.size = s.limit
    · have hl0 : ¬ s.limit = 0 := he ▸ hne
      exact ⟨s, by simp [WorkPool.expand, hne, he, hl0], rfl⟩
    · exact ⟨s, by simp [WorkPool.expand, hne, he, hr], rfl⟩
  · intro hr hlt
    have he : ¬ s.size = s.limit := Nat.ne_of_lt hlt
    have hr2 : ¬ 0 < s.Remaining := by omega
    simp [WorkPool.expand, hne, he, hr2]

/-- Concrete pool for the C3 witness: queue full, size below limit. -/
def c3w : WorkPool :=
  { limit := 4, buffer := 1, size := 1, workers := 1, cancelled := false,
    queueClosed := false, queue := [0], running := [], done := [], discarded := [] }

/-- Witness for claim C3 at a concrete full-queue pool: exactly
min 4 (limit - size) = 3 additional workers are spawned. -/
theorem claim_C3_witness :
    0 < c3w.size ∧ c3w.Remaining = 0 ∧ c3w.size < c3w.limit ∧
    WorkPool.expand c3w =
      some { c3w with size := c3w.size + min 4 (c3w.limit - c3w.size),
                      workers := c3w.workers + min 4 (c3w.limit - c3w.size) } :=
  ⟨by decide, by decide, by decide, (claim_C3 c3w (by decide)).2.2 (by decide) (by decide)⟩

/-! ## Claim C7: classification of the file pass -/

/-- Claim C7: directories and the root are not acted upon; files whose base
name is .DS_Store or begins with the marker "._" are skipped silently;
files with a recognized input extension become convert tasks; every other
file becomes a copy task exactly when the copy-unknown policy is set. -/
theorem claim_C7 (opts : EOpts) (path : String) (isDir : Bool) :
    (isDir = true → visitFile opts path isDir = .skip) ∧
    (path = "." → visitFile opts path isDir = .skip) ∧
    (isDir = false → path ≠ "." →
      (goBase path = ".DS_Store" ∨ beginsWith (goBase path) "._" = true) →
      visitFile opts path isDir = .skip) ∧
    (isDir = false → path ≠ "." → IsTrashFile path = false →
      goExt path ∈ InputExtensions → visitFile opts path isDir = .convertTask) ∧
    (isDir = false → path ≠ "." → IsTrashFile path = false →
      goExt path ∉ InputExtensions →
      (visitFile opts path isDir = .copyTask ↔ opts.CopyUnknown = true)) := by
  refine ⟨?_, ?_, ?_, ?_, ?_⟩
  · intro h
    simp [visitFile, h]
  · intro h
    subst h
    by_cases hd : isDir <;> simp [visitFile, hd]
  · intro h1 h2 h3
    have ht : IsTrashFile path = true := by
      rcases h3 with h | h <;> simp [IsTrashFile, h]
    simp [visitFile, h1, h2, ht]
  · intro h1 h2 h3 h4
    have hm : IsMediaFile path = true := (isMediaFile_iff path).mpr h4
    simp [visitFile, h1, h2, h3, hm]
  · intro h1 h2 h3 h4
    have hm : IsMediaFile path = false := by
      rw [← Bool.not_eq_true]
      intro hc
      exact h4 ((isMediaFile_iff path).mp hc)
    by_cases hc : opts.CopyUnknown <;>
      simp [visitFile, h1, h2, h3, hm, hc]

/-- Witness for claim C7 on concrete files: a Finder metadata file is
skipped, a flac file becomes a convert task, an unknown file becomes a copy
task under the copy-unknown policy. -/
theorem claim_C7_witness :
    visitFile ⟨"mp3", true, false⟩ "a/.DS_Store" false = .skip ∧
    visitFile ⟨"mp3", true, false⟩ "a/b.flac" false = .convertTask ∧
    visitFile ⟨"mp3", true, false⟩ "a/cover.jpg" false = .copyTask :=
  ⟨(claim_C7 ⟨"mp3", true, false⟩ "a/.DS_Store" false).2.2.1 rfl (by decide)
      (Or.inl (by decide)),
   (claim_C7 ⟨"mp3", true, false⟩ "a/b.flac" false).2.2.2.1 rfl (by decide)
      (by decide) (by decide),
   ((claim_C7 ⟨"mp3", true, false⟩ "a/cover.jpg" false).2.2.2.2 rfl (by decide)
      (by decide) (by decide)).mpr rfl⟩

/-! ## Claim C8: no-clobber copy is a no-op -/

/-- Claim C8: a copy task under the no-clobber policy whose destination
already exists returns nil and leaves the output file system unchanged. -/
theorem claim_C8 (opts : EOpts) (out : List (String × OutData))
    (path data : String) (h1 : opts.NoClobber = true)
    (h2 : fsHas out path = true) :
    CopyOpE opts out path data = (out, none) := by
  simp [CopyOpE, h1, h2]

/-- Witness for claim C8 at a concrete one-file destination. -/
theorem claim_C8_witness :
    fsHas [("x.txt", OutData.copied "old")] "x.txt" = true ∧
    CopyOpE ⟨"mp3", true, true⟩ [("x.txt", OutData.copied "old")] "x.txt" "new"
      = ([("x.txt", OutData.copied "old")], none) :=
  ⟨by decide, claim_C8 ⟨"mp3", true, true⟩ _ "x.txt" "new" rfl (by decide)⟩

/-! ## Claim C10: case sensitivity of recognition and of the format check -/

/-- Claim C10: extensions are compared case sensitively.  A file whose
extension differs from a recognized extension only in letter case is not a
media file and is classified copy-or-skip, never convert; and Convert on a
path whose extension is not exactly the lower cased target extension
invokes the transcoder rather than degrading to a copy. -/
theorem claim_C10 :
    (∀ path r, r ∈ InputExtensions → lowerStr (goExt path) = r →
      goExt path ≠ r →
      IsMediaFile path = false ∧
      (∀ opts : EOpts, path ≠ "." → IsTrashFile path = false →
        visitFile opts path false =
          (if opts.CopyUnknown then .copyTask else .skip))) ∧
    (∀ (opts : EOpts) out path data, goExt path ≠ "." ++ opts.Format →
      ConvertOp opts out path data =
        fsWrite out (convertedPath path (goExt path) ("." ++ opts.Format))
          (.transcoded opts.Format data)) := by
  constructor
  · intro path r hr hl hne
    have hm : IsMediaFile path = false := by
      rw [← Bool.not_eq_true]
      intro hc
      have hmem := (isMediaFile_iff path).mp hc
      have := inputExtensions_lower _ hmem
      rw [this] at hl
      exact hne hl
    refine ⟨hm, ?_⟩
    intro opts hroot htrash
    by_cases hc : opts.CopyUnknown <;>
      simp [visitFile, hroot, htrash, hm, hc]
  · intro opts out path data hne
    simp [ConvertOp, hne]

/-- Witness for claim C10: song.FLAC is not recognized as media, and
Convert on song.MP3 with target format mp3 invokes the transcoder, writing
a transcoded file rather than copying. -/
theorem claim_C10_witness :
    IsMediaFile "song.FLAC" = false ∧
    ConvertOp ⟨"mp3", true, false⟩ [] "song.MP3" "x"
      = [("song.mp3", OutData.transcoded "mp3" "x")] := by
  constructor
  · exact (claim_C10.1 "song.FLAC" ".flac" (by decide) (by decide) (by decide)).1
  · rw [claim_C10.2 ⟨"mp3", true, false⟩ [] "song.MP3" "x" (by decide)]
    decide

/-! ## Claim C9: Stop racing Add -/

/-- Claim C9 as stated: under every interleaving of one Stop with one Add on
a running pool, the Add never attempts to deliver a task into a closed or
discarded queue (in Go terms, the send of Add never panics on a closed
channel). -/
def c9Stated : Prop :=
  ∀ (n w : Nat) (l : List RaceChoice), 0 < n →
    (runRace (raceInit n w) l).adder ≠ .panicked

/-- Counterexample to claim C9 as stated: the Add passes expand while the
pool is running, Stop then cancels, the worker exits, Stop closes and
drains the queue, and the send of Add hits the closed queue. -/
theorem claim_C9_counterexample : ¬ c9Stated := by
  intro h
  exact h 1 1 [.adderStep, .stopperStep, .workerExit, .stopperStep, .adderStep]
    (by decide) (by decide)

/-- Invariant of the race system. -/
def raceInv (s : RaceSys) : Prop :=
  (s.queueClosed = true → s.stopper = .done) ∧
  (s.size = 0 → s.stopper = .done) ∧
  (s.adder = .failedNotRunning → s.stopper = .done) ∧
  (s.adder = .panicked → s.queueClosed = true ∧ s.stopper = .done) ∧
  (s.adder = .enq →
    adderTaskId ∈ s.queue ∨ adderTaskId ∈ s.discarded ∨ adderTaskId ∈ s.done)

/-- The race invariant is preserved by every atomic piece. -/
lemma raceInv_step (s : RaceSys) (c : RaceChoice)
    (h : raceInv s) : raceInv (raceStep s c) := by
  obtain ⟨h1, h2, h3, h4, h5⟩ := h
  cases c with
  | adderStep =>
    cases ha : s.adder with
    | idle =>
      cases hsp : s.stopper with
      | waiting =>
        have e : raceStep s .adderStep = s := by simp [raceStep, ha, hsp]
        rw [e]
        exact ⟨h1, h2, h3, h4, h5⟩
      | before =>
        by_cases hs : s.size = 0
        · have e : raceStep s .adderStep = { s with adder := .failedNotRunning } := by
            simp [raceStep, ha, hsp, hs]
          rw [e]
          exact ⟨h1, h2, fun _ => h2 hs, by intro habs; simp at habs,
            by intro habs; simp at habs⟩
        · have e : raceStep s .adderStep = { s with adder := .ready } := by
            simp [raceStep, ha, hsp, hs]
          rw [e]
          exact ⟨h1, h2, by intro habs; simp at habs, by intro habs; simp at habs,
            by intro habs; simp at habs⟩
      | done =>
        by_cases hs : s.size = 0
        · have e : raceStep s .adderStep = { s with adder := .failedNotRunning } := by
            simp [raceStep, ha, hsp, hs]
          rw [e]
          exact ⟨h1, h2, fun _ => h2 hs, by intro habs; simp at habs,
            by intro habs; simp at habs⟩
        · have e : raceStep s .adderStep = { s with adder := .ready } := by
            simp [raceStep, ha, hsp, hs]
          rw [e]
          exact ⟨h1, h2, by intro habs; simp at habs, by intro habs; simp at habs,
            by intro habs; simp at habs⟩
    | ready =>
      by_cases hq : s.queueClosed
      · have e : raceStep s .adderStep = { s with adder := .panicked } := by
          simp [raceStep, ha, hq]
        rw [e]
        exact ⟨h1, h2, by intro habs; simp at habs, fun _ => ⟨hq, h1 hq⟩,
          by intro habs; simp at habs⟩
      · have e : raceStep s .adderStep =
            { s with queue := s.queue ++ [adderTaskId], adder := .enq } := by
          simp [raceStep, ha, hq]
        rw [e]
        refine ⟨h1, h2, by intro habs; simp at habs, by intro habs; simp at habs, ?_⟩
        intro _
        left
        simp
    | enq =>
      have e : raceStep s .adderStep = s := by simp [raceStep, ha]
      rw [e]
      exact ⟨h1, h2, h3, h4, h5⟩
    | failedNotRunning =>
      have e : raceStep s .adderStep = s := by simp [raceStep, ha]
      rw [e]
      exact ⟨h1, h2, h3, h4, h5⟩
    | panicked =>
      have e : raceStep s .adderStep = s := by simp [raceStep, ha]
      rw [e]
      exact ⟨h1, h2, h3, h4, h5⟩
  | stopperStep =>
    cases hsp : s.stopper with
    | before =>
      by_cases hs : s.size = 0
      · have e : raceStep s .stopperStep = { s with stopper := .done } := by
          simp [raceStep, hsp, hs]
        rw [e]
        exact ⟨fun _ => rfl, fun _ => rfl, fun _ => rfl,
          fun hp => ⟨(h4 hp).1, rfl⟩, h5⟩
      · have e : raceStep s .stopperStep =
            { s with cancelled := true, stopper := .waiting } := by
          simp [raceStep, hsp, hs]
        rw [e]
        refine ⟨?_, ?_, ?_, ?_, h5⟩
        · intro hq
          have hd := h1 hq
          rw [hsp] at hd
          exact absurd hd (by simp)
        · intro h0
          exact absurd h0 hs
        · intro hp
          have hd := h3 hp
          rw [hsp] at hd
          exact absurd hd (by simp)
        · intro hp
          have hd := (h4 hp).2
          rw [hsp] at hd
          exact absurd hd (by simp)
    | waiting =>
      by_cases hw : s.workers = 0
      · have e : raceStep s .stopperStep =
            { s with size := 0, queueClosed := true,
                     discarded := s.discarded ++ s.queue, queue := [],
                     stopper := .done } := by
          simp [raceStep, hsp, hw]
        rw [e]
        refine ⟨fun _ => rfl, fun _ => rfl, fun _ => rfl,
          fun _ => ⟨rfl, rfl⟩, ?_⟩
        intro hp
        rcases h5 hp with hh | hh | hh
        · right
          left
          exact List.mem_append_right _ hh
        · right
          left
          exact List.mem_append_left _ hh
        · right
          right
          exact hh
      · have e : raceStep s .stopperStep = s := by simp [raceStep, hsp, hw]
        rw [e]
        exact ⟨h1, h2, h3, h4, h5⟩
    | done =>
      have e : raceStep s .stopperStep = s := by simp [raceStep, hsp]
      rw [e]
      exact ⟨h1, h2, h3, h4, h5⟩
  | workerTake =>
    cases hq : s.queue with
    | nil =>
      have e : raceStep s .workerTake = s := by simp [raceStep, hq]
      rw [e]
      exact ⟨h1, h2, h3, h4, h5⟩
    | cons t rest =>
      by_cases hw : 0 < s.workers
      · have e : raceStep s .workerTake =
            { s with queue := rest, done := s.done ++ [t] } := by
          simp [raceStep, hq, hw]
        rw [e]
        refine ⟨h1, h2, h3, h4, ?_⟩
        intro hp
        rcases h5 hp with hh | hh | hh
        · rw [hq] at hh
          rcases List.mem_cons.mp hh with heq | hh2
          · right
            right
            subst heq
            simp
          · left
            exact hh2
        · right
          left
          exact hh
        · right
          right
          exact List.mem_append_left _ hh
      · have e : raceStep s .workerTake = s := by simp [raceStep, hq, hw]
        rw [e]
        exact ⟨h1, h2, h3, h4, h5⟩
  | workerExit =>
    by_cases hc : 0 < s.workers ∧
        (s.cancelled = true ∨ (s.queueClosed = true ∧ s.queue = []))
    · have e : raceStep s .workerExit = { s with workers := s.workers - 1 } := by
        simp only [raceStep, if_pos hc]
      rw [e]
      exact ⟨h1, h2, h3, h4, h5⟩
    · have e : raceStep s .workerExit = s := by
        simp only [raceStep, if_neg hc]
      rw [e]
      exact ⟨h1, h2, h3, h4, h5⟩

/-- The race invariant holds after every schedule. -/
lemma raceInv_run (l : List RaceChoice) :
    ∀ s : RaceSys, raceInv s → raceInv (runRace s l) := by
  induction l with
  | nil => exact fun s h => h
  | cons c rest ih =>
    intro s h
    exact ih (raceStep s c) (raceInv_step s c h)

/-- Claim C9 amended: Stop holds the mutex for its whole body, so the
expand step of a racing Add observes either the running pool or the fully
stopped one, never an intermediate state: an Add that fails with the
pool-not-running error does so only after Stop has returned; an Add whose
enqueue succeeded delivered its task into the then-open queue, where it
either still sits, has been executed by a worker (a cancelled worker may
pick it, since select chooses randomly among ready branches), or has been
discarded by the drain of Stop; but an Add that passed expand before Stop
may still panic by sending on the queue Stop has closed. -/
theorem claim_C9_amended (n w : Nat) (l : List RaceChoice) (h : 0 < n) :
    ((runRace (raceInit n w) l).adder = .failedNotRunning →
      (runRace (raceInit n w) l).stopper = .done) ∧
    ((runRace (raceInit n w) l).adder = .panicked →
      (runRace (raceInit n w) l).queueClosed = true ∧
      (runRace (raceInit n w) l).stopper = .done) ∧
    ((runRace (raceInit n w) l).adder = .enq →
      adderTaskId ∈ (runRace (raceInit n w) l).queue ∨
      adderTaskId ∈ (runRace (raceInit n w) l).discarded ∨
      adderTaskId ∈ (runRace (raceInit n w) l).done) := by
  have h0 : raceInv (raceInit n w) := by
    refine ⟨by simp [raceInit], ?_, by simp [raceInit], by simp [raceInit],
      by simp [raceInit]⟩
    intro hz
    exact absurd hz (by simp [raceInit]; omega)
  have hinv := raceInv_run l (raceInit n w) h0
  exact ⟨hinv.2.2.1, hinv.2.2.2.1, hinv.2.2.2.2⟩

/-- Witness for claim C9 amended at two concrete schedules: on the
panicking schedule the panic indeed happens only after Stop has closed the
queue and returned, and on a schedule where the send lands before Stop and
a cancelled worker picks the task, the delivered task ends among the
executed ones. -/
theorem claim_C9_witness :
    ((runRace (raceInit 1 1)
        [.adderStep, .stopperStep, .workerExit, .stopperStep, .adderStep]).queueClosed
      = true ∧
     (runRace (raceInit 1 1)
        [.adderStep, .stopperStep, .workerExit, .stopperStep, .adderStep]).stopper
      = .done) ∧
    (adderTaskId ∈ (runRace (raceInit 1 1)
        [.adderStep, .adderStep, .stopperStep, .workerTake, .workerExit,
         .stopperStep]).queue ∨
     adderTaskId ∈ (runRace (raceInit 1 1)
        [.adderStep, .adderStep, .stopperStep, .workerTake, .workerExit,
         .stopperStep]).discarded ∨
     adderTaskId ∈ (runRace (raceInit 1 1)
        [.adderStep, .adderStep, .stopperStep, .workerTake, .workerExit,
         .stopperStep]).done) :=
  ⟨(claim_C9_amended 1 1
      [.adderStep, .stopperStep, .workerExit, .stopperStep, .adderStep]
      (by decide)).2.1 (by decide),
   (claim_C9_amended 1 1
      [.adderStep, .adderStep, .stopperStep, .workerTake, .workerExit,
       .stopperStep]
      (by decide)).2.2 (by decide)⟩

/-! ## Claim C5: directory pass strictly precedes pool start and file tasks -/

/-- Every event of the interleaved file pass is a submission or an
execution. -/
lemma fileEvents_shape (sched : List Bool) :
    ∀ ts pend, ∀ e ∈ fileEvents sched ts pend,
      (∃ p, e = Ev.submit p) ∨ (∃ p, e = Ev.exec p) := by
  induction sched with
  | nil =>
    intro ts pend e he
    simp only [fileEvents, List.mem_append, List.mem_map] at he
    rcases he with ⟨p, _, rfl⟩ | ⟨p, _, rfl⟩
    · exact Or.inl ⟨p, rfl⟩
    · exact Or.inr ⟨p, rfl⟩
  | cons b rest ih =>
    intro ts pend e he
    cases ts with
    | nil =>
      cases pend with
      | nil => simp [fileEvents] at he
      | cons p ps =>
        simp only [fileEvents, List.mem_cons] at he
        rcases he with rfl | he
        · exact Or.inr ⟨p, rfl⟩
        · exact ih [] ps e he
    | cons t ts2 =>
      cases pend with
      | nil =>
        simp only [fileEvents, List.mem_cons] at he
        rcases he with rfl | he
        · exact Or.inl ⟨t, rfl⟩
        · exact ih ts2 [t] e he
      | cons p ps =>
        cases b with
        | true =>
          simp only [fileEvents, if_true, List.mem_cons] at he
          rcases he with rfl | he
          · exact Or.inl ⟨t, rfl⟩
          · exact ih ts2 ((p :: ps) ++ [t]) e he
        | false =>
          simp only [fileEvents, Bool.false_eq_true, if_false, List.mem_cons] at he
          rcases he with rfl | he
          · exact Or.inr ⟨p, rfl⟩
          · exact ih (t :: ts2) ps e he

/-- Claim C5: under every worker schedule, the trace of Exporter.Run splits
into a first segment of exactly the directory creations for every non-root
input directory, then the pool start, then a segment of only task
submissions and executions; no directory creation happens after the pool
starts. -/
theorem claim_C5 (opts : EOpts) (entries : List Entry) (sched : List Bool) :
    ∃ pre post, runTrace opts entries sched = pre ++ Ev.poolStart :: post ∧
      (∀ e ∈ pre, ∃ p, e = Ev.mkdir p) ∧
      (∀ p, Ev.mkdir p ∈ pre ↔
        ∃ e ∈ entries, e.isDir = true ∧ e.path ≠ "." ∧ e.path = p) ∧
      (∀ e ∈ post, (∃ p, e = Ev.submit p) ∨ (∃ p, e = Ev.exec p)) ∧
      (∀ p, Ev.mkdir p ∉ post) := by
  refine ⟨(dirPaths entries).map Ev.mkdir,
    fileEvents sched (taskPaths opts entries) [], rfl, ?_, ?_, ?_, ?_⟩
  · intro e he
    rcases List.mem_map.mp he with ⟨p, _, rfl⟩
    exact ⟨p, rfl⟩
  · intro p
    constructor
    · intro h
      rcases List.mem_map.mp h with ⟨q, hq, heq⟩
      have hqp : q = p := by simpa using heq
      subst hqp
      rcases List.mem_filterMap.mp hq with ⟨e, he, hf⟩
      by_cases hc : e.isDir = true ∧ e.path ≠ "."
      · rw [if_pos hc] at hf
        have hpq : e.path = q := by simpa using hf
        exact ⟨e, he, hc.1, hc.2, hpq⟩
      · rw [if_neg hc] at hf
        exact absurd hf (by simp)
    · rintro ⟨e, he, hdir, hroot, rfl⟩
      refine List.mem_map.mpr ⟨e.path, ?_, rfl⟩
      exact List.mem_filterMap.mpr ⟨e, he, by simp [hdir, hroot]⟩
  · exact fun e he => fileEvents_shape sched _ _ e he
  · intro p hp
    rcases fileEvents_shape sched _ _ _ hp with ⟨q, hq⟩ | ⟨q, hq⟩ <;> simp at hq

/-- Concrete tree for the C5 witness. -/
def c5Entries : List Entry :=
  [⟨".", true, ""⟩, ⟨"sub", true, ""⟩, ⟨"a.flac", false, "x"⟩,
   ⟨"sub/b.wav", false, "y"⟩]

/-- Witness for claim C5 on a concrete tree and schedule. -/
theorem claim_C5_witness :
    ∃ pre post,
      runTrace ⟨"mp3", true, false⟩ c5Entries [true, false] =
        pre ++ Ev.poolStart :: post ∧
      (∀ e ∈ pre, ∃ p, e = Ev.mkdir p) ∧
      (∀ p, Ev.mkdir p ∈ pre ↔
        ∃ e ∈ c5Entries, e.isDir = true ∧ e.path ≠ "." ∧ e.path = p) ∧
      (∀ e ∈ post, (∃ p, e = Ev.submit p) ∨ (∃ p, e = Ev.exec p)) ∧
      (∀ p, Ev.mkdir p ∉ post) :=
  claim_C5 ⟨"mp3", true, false⟩ c5Entries [true, false]

/-! ## Drain lemmas for the worker step relation -/

/-- Worker steps never touch the bookkeeping fields: limit, buffer, size,
the cancellation flag, the closed flag and the discarded list are
preserved. -/
lemma wsteps_fields {s t : WorkPool} (h : WSteps s t) :
    t.limit = s.limit ∧ t.buffer = s.buffer ∧ t.size = s.size ∧
    t.cancelled = s.cancelled ∧ t.queueClosed = s.queueClosed ∧
    t.discarded = s.discarded := by
  induction h with
  | refl => exact ⟨rfl, rfl, rfl, rfl, rfl, rfl⟩
  | tail y z hxy hyz ih =>
    cases hyz with
    | take a q2 hq hl hu => subst hu; exact ih
    | fin a l1 l2 hr hu => subst hu; exact ih
    | exitCancel hc hl hu => subst hu; exact ih
    | exitClosed hc hq hl hu => subst hu; exact ih

/-- Along any sequence of worker steps, the tasks taken so far form a front
segment of the original queue, the remaining queue is the back segment, and
the finished plus in-flight tasks are a permutation of the original
finished, in-flight and taken tasks.  The in-flight count stays bounded by
the worker count. -/
lemma drain_decompose {s t : WorkPool} (h : WSteps s t)
    (hlen : s.running.length ≤ s.workers) :
    t.running.length ≤ t.workers ∧
    ∃ ran rest, s.queue = ran ++ rest ∧ t.queue = rest ∧
      (t.done ++ t.running).Perm (s.done ++ s.running ++ ran) := by
  induction h with
  | refl => exact ⟨hlen, [], s.queue, rfl, rfl, by simp⟩
  | tail y z hxy hyz ih =>
    obtain ⟨hlen2, ran, rest, hsq, htq, hperm⟩ := ih
    cases hyz with
    | take a q2 hq hl hu =>
      subst hu
      have hrest : rest = a :: q2 := by rw [← htq, hq]
      refine ⟨?_, ran ++ [a], q2, ?_, by simp, ?_⟩
      · simp
        omega
      · rw [hsq, hrest, List.append_assoc]
        rfl
      · show (y.done ++ (y.running ++ [a])).Perm
          (s.done ++ s.running ++ (ran ++ [a]))
        rw [← List.append_assoc y.done, ← List.append_assoc (s.done ++ s.running)]
        exact hperm.append_right [a]
    | fin a l1 l2 hr hu =>
      subst hu
      refine ⟨?_, ran, rest, hsq, htq, ?_⟩
      · have hlr : y.running.length = l1.length + 1 + l2.length := by
          rw [hr]
          simp
          omega
        simp
        omega
      · show ((y.done ++ [a]) ++ (l1 ++ l2)).Perm (s.done ++ s.running ++ ran)
        have h1 : ((y.done ++ [a]) ++ (l1 ++ l2)).Perm
            (y.done ++ (l1 ++ a :: l2)) := by
          rw [List.append_assoc, List.singleton_append]
          exact (List.perm_middle.symm).append_left y.done
        exact h1.trans (hr ▸ hperm)
    | exitCancel hc hl hu =>
      subst hu
      refine ⟨?_, ran, rest, hsq, htq, hperm⟩
      simp
      omega
    | exitClosed hc hq hl hu =>
      subst hu
      refine ⟨?_, ran, rest, hsq, htq, hperm⟩
      simp
      omega

/-- While the pool context is not cancelled, a worker loop can only exit
over a closed and drained queue, so when every worker has exited nothing is
left queued or in flight. -/
lemma drain_noCancel {s t : WorkPool} (h : WSteps s t)
    (hc : s.cancelled = false) (hlen : s.running.length ≤ s.workers)
    (hz : s.workers = 0 → s.queue = [] ∧ s.running = []) :
    t.cancelled = false ∧ t.running.length ≤ t.workers ∧
    (t.workers = 0 → t.queue = [] ∧ t.running = []) := by
  induction h with
  | refl => exact ⟨hc, hlen, hz⟩
  | tail y z hxy hyz ih =>
    obtain ⟨hc2, hlen2, hz2⟩ := ih
    cases hyz with
    | take a q2 hq hl hu =>
      subst hu
      refine ⟨hc2, ?_, ?_⟩
      · simp
        omega
      · intro h0
        have hcontra := (hz2 (by simpa using h0)).1
        rw [hq] at hcontra
        exact absurd hcontra (by simp)
    | fin a l1 l2 hr hu =>
      subst hu
      refine ⟨hc2, ?_, ?_⟩
      · have hlr : y.running.length = l1.length + 1 + l2.length := by
          rw [hr]
          simp
          omega
        simp
        omega
      · intro h0
        have hcontra := (hz2 (by simpa using h0)).2
        rw [hr] at hcontra
        exact absurd hcontra (by simp)
    | exitCancel hcc hl hu =>
      rw [hc2] at hcc
      exact absurd hcc (by simp)
    | exitClosed hcc hq hl hu =>
      subst hu
      refine ⟨hc2, ?_, ?_⟩
      · simp
        omega
      · intro h0
        have h0b : y.workers - 1 = 0 := by simpa using h0
        refine ⟨hq, ?_⟩
        have hl0 : y.running.length = 0 := by omega
        exact List.length_eq_zero.mp hl0

/-- Expand succeeds on every running pool. -/
lemma expand_isSome (s : WorkPool) (h : 0 < s.size) : (s.expand).isSome := by
  have hne : ¬ s.size = 0 := by omega
  rw [WorkPool.expand]
  rw [if_neg hne]
  by_cases h1 : s.size = s.limit
  · simp [h1]
  · rw [if_neg h1]
    by_cases h2 : 0 < s.Remaining
    · simp [h2]
    · simp [h2]

/-! ## Claim C2: Wait is a barrier followed by a reset -/

/-- Claim C2: on a running pool, Wait executes every task added before the
call exactly once before it returns (the multiplicity of every task among
the finished ones grows by exactly its multiplicity among the queued and
in-flight ones), and afterwards the pool is immediately reusable: the size
is positive, the queue is open, and Add succeeds without an intervening
Start. -/
theorem claim_C2 (ncpu : Nat) (s s2 : WorkPool)
    (hn : 1 ≤ ncpu) (hl : 1 ≤ s.limit)
    (hw : 0 < s.workers) (hrw : s.running.length ≤ s.workers)
    (hc : s.cancelled = false)
    (hx : WaitExec ncpu s s2) :
    (∀ t, s2.done.count t =
      s.done.count t + s.running.count t + s.queue.count t) ∧
    0 < s2.size ∧ s2.queueClosed = false ∧ (∀ f, (s2.Add f).isSome) := by
  obtain ⟨hopen, m, hsteps, hw0, hinit⟩ := hx
  have hfields := wsteps_fields hsteps
  have hdec := drain_decompose hsteps (show (closeStep s).running.length ≤
    (closeStep s).workers from hrw)
  obtain ⟨hlen, ran, rest, hsq, hmq, hperm⟩ := hdec
  have hnc := drain_noCancel hsteps (show (closeStep s).cancelled = false from hc)
    (show (closeStep s).running.length ≤ (closeStep s).workers from hrw)
    (fun h0 => absurd h0 (by show ¬ s.workers = 0; omega))
  obtain ⟨hmq0, hmr0⟩ := hnc.2.2 hw0
  have hrest : rest = [] := by rw [← hmq, hmq0]
  have hqran : s.queue = ran := by
    rw [show (closeStep s).queue = s.queue from rfl] at hsq
    rw [hsq, hrest, List.append_nil]
  have hdone : m.done.Perm (s.done ++ s.running ++ s.queue) := by
    have := hperm
    rw [hmr0, List.append_nil] at this
    rw [hqran]
    exact this
  have hs2 : s2 = { m with
                    size := min ncpu m.limit,
                    workers := min ncpu m.limit,
                    queue := [],
                    queueClosed := false } := by
    rw [WorkPool.init] at hinit
    simp at hinit
    exact hinit.symm
  have hml : m.limit = s.limit := hfields.1
  refine ⟨?_, ?_, ?_, ?_⟩
  · intro t
    have hcount := hdone.count_eq t
    rw [hs2]
    simp only [List.count_append] at hcount
    simp only []
    omega
  · rw [hs2]
    simp [hml]
    omega
  · rw [hs2]
  · intro f
    have hpos : 0 < s2.size := by
      rw [hs2]
      simp [hml]
      omega
    have := expand_isSome s2 hpos
    rw [WorkPool.Add]
    cases he : s2.expand with
    | none => rw [he] at this; exact absurd this (by simp)
    | some u => simp [he]

/-- Concrete running pool for the C2 witness: one worker, one queued task. -/
def c2s : WorkPool :=
  { limit := 1, buffer := 2, size := 1, workers := 1, cancelled := false,
    queueClosed := false, queue := [3], running := [], done := [], discarded := [] }

/-- State of the C2 witness pool after the take step. -/
def c2a1 : WorkPool :=
  { limit := 1, buffer := 2, size := 1, workers := 1, cancelled := false,
    queueClosed := true, queue := [], running := [3], done := [], discarded := [] }

/-- State of the C2 witness pool after the task finishes. -/
def c2a2 : WorkPool :=
  { limit := 1, buffer := 2, size := 1, workers := 1, cancelled := false,
    queueClosed := true, queue := [], running := [], done := [3], discarded := [] }

/-- State of the C2 witness pool after the worker exits. -/
def c2m : WorkPool :=
  { limit := 1, buffer := 2, size := 1, workers := 0, cancelled := false,
    queueClosed := true, queue := [], running := [], done := [3], discarded := [] }

/-- The C2 witness pool after Wait has drained and restarted. -/
def c2s2 : WorkPool :=
  { limit := 1, buffer := 2, size := 1, workers := 1, cancelled := false,
    queueClosed := false, queue := [], running := [], done := [3], discarded := [] }

/-- Witness for claim C2 at a concrete pool: the queued task 3 is executed
exactly once and the restarted pool accepts Add. -/
theorem claim_C2_witness :
    WaitExec 1 c2s c2s2 ∧
    c2s2.done.count 3 =
      c2s.done.count 3 + c2s.running.count 3 + c2s.queue.count 3 ∧
    0 < c2s2.size := by
  have hx : WaitExec 1 c2s c2s2 := by
    refine ⟨rfl, c2m, ?_, rfl, by decide⟩
    have st1 : WStep (closeStep c2s) c2a1 :=
      WStep.take (closeStep c2s) c2a1 3 [] (by decide) (by decide) (by decide)
    have st2 : WStep c2a1 c2a2 :=
      WStep.fin c2a1 c2a2 3 [] [] (by decide) (by decide)
    have st3 : WStep c2a2 c2m :=
      WStep.exitClosed c2a2 c2m (by decide) (by decide) (by decide) (by decide)
    exact WSteps.tail _ _ _ (WSteps.tail _ _ _
      (WSteps.tail _ _ _ (WSteps.refl _) st1) st2) st3
  have hall := claim_C2 1 c2s c2s2 (by decide) (by decide) (by decide)
    (by decide) (by decide) hx
  exact ⟨hx, hall.1 3, hall.2.1⟩

/-- Add succeeds on every running pool. -/
lemma add_isSome (s : WorkPool) (f : Nat) (h : 0 < s.size) : (s.Add f).isSome := by
  have hexp := expand_isSome s h
  rw [WorkPool.Add]
  cases he : s.expand with
  | none => rw [he] at hexp; exact absurd hexp (by simp)
  | some u => simp [he]

/-! ## Claim C1: what Stop guarantees -/

/-- Claim C1 as stated: Stop on a running pool runs exactly the in-flight
tasks to completion, never executes any queued task, leaves size 0, makes
Add fail, and a second Stop fails. -/
def c1Stated : Prop :=
  ∀ s s2 : WorkPool, s.running.length ≤ s.workers → StopExec s s2 →
    (∀ t, t ∈ s.queue → t ∉ s.done → t ∉ s.running → t ∉ s2.done) ∧
    (∀ t, s2.done.count t = s.done.count t + s.running.count t) ∧
    s2.size = 0 ∧ (∀ f, s2.Add f = none) ∧ (∀ u, ¬ StopExec s2 u)

/-- Concrete pool for the C1 counterexample: one worker executing task 5
with task 7 queued. -/
def c1s : WorkPool :=
  { limit := 1, buffer := 2, size := 1, workers := 1, cancelled := false,
    queueClosed := false, queue := [7], running := [5], done := [], discarded := [] }

/-- C1 counterexample, after the worker finishes task 5 under
cancellation. -/
def c1b1 : WorkPool :=
  { limit := 1, buffer := 2, size := 1, workers := 1, cancelled := true,
    queueClosed := false, queue := [7], running := [], done := [5], discarded := [] }

/-- C1 counterexample, after the select of the worker picks the ready queue
branch over the equally ready cancellation branch and takes task 7. -/
def c1b2 : WorkPool :=
  { limit := 1, buffer := 2, size := 1, workers := 1, cancelled := true,
    queueClosed := false, queue := [], running := [7], done := [5], discarded := [] }

/-- C1 counterexample, after task 7 finishes. -/
def c1b3 : WorkPool :=
  { limit := 1, buffer := 2, size := 1, workers := 1, cancelled := true,
    queueClosed := false, queue := [], running := [], done := [5, 7], discarded := [] }

/-- C1 counterexample, after the worker exits on cancellation. -/
def c1b4 : WorkPool :=
  { limit := 1, buffer := 2, size := 1, workers := 0, cancelled := true,
    queueClosed := false, queue := [], running := [], done := [5, 7], discarded := [] }

/-- C1 counterexample, final state returned by Stop. -/
def c1s2 : WorkPool :=
  { limit := 1, buffer := 2, size := 0, workers := 0, cancelled := true,
    queueClosed := true, queue := [], running := [], done := [5, 7], discarded := [] }

/-- Counterexample to claim C1 as stated: the Go select of the worker makes
a uniformly random choice among ready branches, and after cancellation both
the done channel and the non-empty queue are ready, so a legal execution of
Stop takes and runs the queued task 7. -/
theorem claim_C1_counterexample : ¬ c1Stated := by
  intro h
  have st1 : WStep (cancelStep c1s) c1b1 :=
    WStep.fin (cancelStep c1s) c1b1 5 [] [] (by decide) (by decide)
  have st2 : WStep c1b1 c1b2 :=
    WStep.take c1b1 c1b2 7 [] (by decide) (by decide) (by decide)
  have st3 : WStep c1b2 c1b3 :=
    WStep.fin c1b2 c1b3 7 [] [] (by decide) (by decide)
  have st4 : WStep c1b3 c1b4 :=
    WStep.exitCancel c1b3 c1b4 (by decide) (by decide) (by decide)
  have hstop : StopExec c1s c1s2 := by
    refine ⟨by decide, c1b4, ?_, by decide, by decide⟩
    exact WSteps.tail _ _ _ (WSteps.tail _ _ _ (WSteps.tail _ _ _
      (WSteps.tail _ _ _ (WSteps.refl _) st1) st2) st3) st4
  exact ((h c1s c1s2 (by decide) hstop).1 7 (by decide) (by decide) (by decide))
    (by decide)

/-- Claim C1 amended: Stop on a running pool lets every in-flight task run
to completion, may additionally execute some front segment of the queued
tasks (the select of each worker chooses randomly among ready branches, so
a worker may take queued tasks after cancellation), discards the rest,
leaves size 0, makes Add fail until Start succeeds again, and a second Stop
fails. -/
theorem claim_C1_amended (s s2 : WorkPool) (hrw : s.running.length ≤ s.workers)
    (hx : StopExec s s2) :
    (∃ ran rest, s.queue = ran ++ rest ∧
      (∀ t, s2.done.count t =
        s.done.count t + s.running.count t + ran.count t) ∧
      s2.discarded = s.discarded ++ rest) ∧
    (∀ t, t ∈ s.running → t ∈ s2.done) ∧
    s2.size = 0 ∧ (∀ f, s2.Add f = none) ∧ (∀ u, ¬ StopExec s2 u) ∧
    (∀ ncpu, 1 ≤ ncpu → 1 ≤ s2.limit →
      ∃ p1, s2.Start ncpu = some p1 ∧ ∀ f, (p1.Add f).isSome) := by
  obtain ⟨hsz, m, hsteps, hw0, hfin⟩ := hx
  have hfields := wsteps_fields hsteps
  have hdec := drain_decompose hsteps
    (show (cancelStep s).running.length ≤ (cancelStep s).workers from hrw)
  obtain ⟨hlen, ran, rest, hsq, hmq, hperm⟩ := hdec
  have hmr0 : m.running = [] := by
    have hzero : m.running.length = 0 := by omega
    exact List.length_eq_zero.mp hzero
  have hdone : m.done.Perm (s.done ++ s.running ++ ran) := by
    have hp := hperm
    rw [hmr0, List.append_nil] at hp
    exact hp
  subst hfin
  refine ⟨⟨ran, rest, hsq, ?_, ?_⟩, ?_, rfl, ?_, ?_, ?_⟩
  · intro t
    have hcount := hdone.count_eq t
    simp only [List.count_append] at hcount
    show m.done.count t = _
    omega
  · show m.discarded ++ m.queue = s.discarded ++ rest
    rw [hfields.2.2.2.2.2, hmq]
    rfl
  · intro t ht
    have hmem : t ∈ s.done ++ s.running ++ ran :=
      List.mem_append_left ran (List.mem_append_right s.done ht)
    exact hdone.mem_iff.mpr hmem
  · intro f
    simp [WorkPool.Add, WorkPool.expand, stopFinalize]
  · rintro u ⟨h0, -⟩
    simp [stopFinalize] at h0
  · intro ncpu hn hl
    refine ⟨{ stopFinalize m with
              queue := [],
              queueClosed := false,
              size := min ncpu (stopFinalize m).limit,
              workers := min ncpu (stopFinalize m).limit }, ?_, ?_⟩
    · rw [WorkPool.Start, WorkPool.init]
      simp [stopFinalize]
    · intro f
      apply add_isSome
      simp
      omega

/-- Concrete pool for the C1 amended witness: one worker executing task 9,
nothing queued. -/
def c1w : WorkPool :=
  { limit := 1, buffer := 2, size := 1, workers := 1, cancelled := false,
    queueClosed := false, queue := [], running := [9], done := [], discarded := [] }

/-- C1 witness, after task 9 finishes under cancellation. -/
def c1w1 : WorkPool :=
  { limit := 1, buffer := 2, size := 1, workers := 1, cancelled := true,
    queueClosed := false, queue := [], running := [], done := [9], discarded := [] }

/-- C1 witness, after the worker exits. -/
def c1wm : WorkPool :=
  { limit := 1, buffer := 2, size := 1, workers := 0, cancelled := true,
    queueClosed := false, queue := [], running := [], done := [9], discarded := [] }

/-- C1 witness, final state returned by Stop. -/
def c1w2 : WorkPool :=
  { limit := 1, buffer := 2, size := 0, workers := 0, cancelled := true,
    queueClosed := true, queue := [], running := [], done := [9], discarded := [] }

/-- Witness for claim C1 amended at a concrete stop: the in-flight task 9
completes and the pool ends with size 0. -/
theorem claim_C1_witness :
    StopExec c1w c1w2 ∧ 9 ∈ c1w2.done ∧ c1w2.size = 0 := by
  have st1 : WStep (cancelStep c1w) c1w1 :=
    WStep.fin (cancelStep c1w) c1w1 9 [] [] (by decide) (by decide)
  have st2 : WStep c1w1 c1wm :=
    WStep.exitCancel c1w1 c1wm (by decide) (by decide) (by decide)
  have hstop : StopExec c1w c1w2 := by
    refine ⟨by decide, c1wm, ?_, by decide, by decide⟩
    exact WSteps.tail _ _ _ (WSteps.tail _ _ _ (WSteps.refl _) st1) st2
  have hall := claim_C1_amended c1w c1w2 (by decide) hstop
  exact ⟨hstop, hall.2.1 9 (by decide), hall.2.2.1⟩

/-! ## Claim C4: the worker count never exceeds the capacity -/

/-- Growth in expand never pushes the size past the limit. -/
lemma expand_size {s u : WorkPool} (h : s.expand = some u)
    (hs : s.size ≤ s.limit) : u.size ≤ u.limit ∧ u.limit = s.limit := by
  rw [WorkPool.expand] at h
  by_cases h0 : s.size = 0
  · simp [h0] at h
  · rw [if_neg h0] at h
    by_cases h1 : s.size = s.limit
    · rw [if_pos h1] at h
      have he := Option.some.inj h
      subst he
      exact ⟨hs, rfl⟩
    · rw [if_neg h1] at h
      by_cases h2 : 0 < s.Remaining
      · rw [if_pos h2] at h
        have he := Option.some.inj h
        subst he
        exact ⟨hs, rfl⟩
      · rw [if_neg h2] at h
        have he := Option.some.inj h
        rw [← he]
        have hmin := Nat.min_le_right 4 (s.limit - s.size)
        constructor
        · simp
          omega
        · rfl

/-- Every pool transition keeps the size at most the limit and preserves
the limit. -/
lemma pooltx_inv {ncpu : Nat} {s t : WorkPool} (h : PoolTx ncpu s t)
    (hs : s.size ≤ s.limit) : t.size ≤ t.limit ∧ t.limit = s.limit := by
  cases h with
  | start hst =>
    rw [WorkPool.Start, WorkPool.init] at hst
    by_cases h0 : s.size ≠ 0
    · simp [h0] at hst
    · rw [if_neg h0] at hst
      have he := Option.some.inj hst
      rw [← he]
      constructor
      · simp
      · rfl
  | add f ha =>
    rw [WorkPool.Add] at ha
    cases he : s.expand with
    | none => rw [he] at ha; simp at ha
    | some u =>
      rw [he] at ha
      simp at ha
      obtain ⟨hu1, hu2⟩ := expand_size he hs
      rw [← ha]
      exact ⟨hu1, hu2⟩
  | wait hw =>
    obtain ⟨_, m, hsteps, _, hinit⟩ := hw
    have hfields := wsteps_fields hsteps
    rw [WorkPool.init] at hinit
    simp at hinit
    rw [← hinit]
    constructor
    · simp
    · exact hfields.1
  | stop hst =>
    obtain ⟨_, m, hsteps, _, hfin⟩ := hst
    have hfields := wsteps_fields hsteps
    subst hfin
    constructor
    · simp [stopFinalize]
    · exact hfields.1
  | work hw =>
    cases hw with
    | take a q2 hq hl hu => subst hu; exact ⟨hs, rfl⟩
    | fin a l1 l2 hr hu => subst hu; exact ⟨hs, rfl⟩
    | exitCancel hc hl hu => subst hu; exact ⟨hs, rfl⟩
    | exitClosed hc hq hl hu => subst hu; exact ⟨hs, rfl⟩

/-- Every sequence of pool transitions keeps the size at most the limit and
preserves the limit. -/
lemma poolseq_inv {ncpu : Nat} {s t : WorkPool} (h : PoolSeq ncpu s t)
    (hs : s.size ≤ s.limit) : t.size ≤ t.limit ∧ t.limit = s.limit := by
  induction h with
  | refl => exact ⟨hs, rfl⟩
  | tail y z hxy htx ih =>
    obtain ⟨h1, h2⟩ := ih
    obtain ⟨h3, h4⟩ := pooltx_inv htx h1
    exact ⟨h3, h4.trans h2⟩

/-- Claim C4: the size stays between 0 and the capacity.  A fresh pool has
size 0 and limit equal to the requested positive capacity; a freshly
started pool has positive size at most min ncpu capacity and at most the
limit, which equals the capacity; and no sequence of Start, Add, Wait,
Stop calls or worker steps ever pushes the size past the capacity.
Non-negativity is inherent in the Nat model. -/
theorem claim_C4 (ncpu capacity buffer : Nat) (hn : 1 ≤ ncpu)
    (hcap : 0 < capacity) :
    (NewWorkPool ncpu capacity buffer).size = 0 ∧
    (NewWorkPool ncpu capacity buffer).limit = capacity ∧
    (∀ p1, (NewWorkPool ncpu capacity buffer).Start ncpu = some p1 →
      0 < p1.size ∧ p1.size ≤ min ncpu capacity ∧
      p1.size ≤ p1.limit ∧ p1.limit = capacity) ∧
    (∀ s2, PoolSeq ncpu (NewWorkPool ncpu capacity buffer) s2 →
      s2.size ≤ capacity) := by
  have hc0 : ¬ capacity = 0 := by omega
  have hlim : (NewWorkPool ncpu capacity buffer).limit = capacity := by
    simp [NewWorkPool, hc0]
  refine ⟨rfl, hlim, ?_, ?_⟩
  · intro p1 hp
    rw [WorkPool.Start, WorkPool.init] at hp
    simp [NewWorkPool, hc0] at hp
    rw [← hp]
    refine ⟨?_, ?_, ?_, ?_⟩ <;> simp [NewWorkPool, hc0] <;> omega
  · intro s2 hseq
    obtain ⟨h1, h2⟩ := poolseq_inv hseq (by simp [NewWorkPool])
    rw [h2, hlim] at h1
    exact h1

/-- Witness for claim C4 at ncpu 2, capacity 3: the fresh pool has size 0
and every reachable state keeps size at most 3. -/
theorem claim_C4_witness :
    (NewWorkPool 2 3 0).size = 0 ∧ (NewWorkPool 2 3 0).size ≤ 3 := by
  have hall := claim_C4 2 3 0 (by decide) (by decide)
  exact ⟨hall.1, hall.2.2.2 (NewWorkPool 2 3 0) (PoolSeq.refl (NewWorkPool 2 3 0))⟩

/-! ## Claim C6: export with matching format versus a pure copy -/

/-- A validated format prefixed with a dot is a recognized input
extension. -/
lemma validFormat_ext (f : String) (hf : f ∈ validFormats) :
    ("." ++ f) ∈ InputExtensions := by
  simp [validFormats] at hf
  rcases hf with rfl | rfl | rfl | rfl <;> decide

/-- Existence on a concatenation of output listings. -/
lemma fsHas_append (l1 l2 : List (String × OutData)) (p : String) :
    fsHas (l1 ++ l2) p = (fsHas l1 p || fsHas l2 p) := by
  simp [fsHas, List.any_append]

/-- Claim C6 as stated: whenever the target format equals the extension of
every file in the tree, the export is a pure directory-structure copy. -/
def c6Stated : Prop :=
  ∀ (opts : EOpts) (entries : List Entry),
    opts.Format ∈ validFormats →
    (∀ e ∈ entries, e.isDir = false → goExt e.path = "." ++ opts.Format) →
    exportTree opts entries = pureCopy entries

/-- Counterexample to claim C6 as stated: an Apple Double file named
._a.flac has extension .flac, yet the file pass skips it as trash, so the
export omits it while a pure copy keeps it. -/
theorem claim_C6_counterexample : ¬ c6Stated := by
  intro h
  have hcontra := h ⟨"flac", true, false⟩
    [⟨".", true, ""⟩, ⟨"._a.flac", false, "x"⟩] (by decide) (by decide)
  exact absurd hcontra (by decide)

/-- The file pass over a trash-free tree of media files already in the
target format appends exactly one copied file per entry, in traversal
order, whatever output listing it starts from, provided no entry collides
with the listing or with another entry. -/
lemma exportFiles_go (opts : EOpts) :
    ∀ (entries : List Entry) (acc : List (String × OutData)),
      opts.Format ∈ validFormats →
      (∀ e ∈ entries, e.isDir = false → goExt e.path = "." ++ opts.Format) →
      (∀ e ∈ entries, e.isDir = false → IsTrashFile e.path = false) →
      (∀ e ∈ entries, e.isDir = false → e.path ≠ ".") →
      (entries.filterMap
        (fun e => if e.isDir = false then some e.path else none)).Nodup →
      (∀ e ∈ entries, e.isDir = false → fsHas acc e.path = false) →
      List.foldl (execTask opts) acc entries =
        acc ++ entries.filterMap
          (fun e => if e.isDir = false then some (e.path, OutData.copied e.data)
            else none) := by
  intro entries
  induction entries with
  | nil =>
    intro acc _ _ _ _ _ _
    simp
  | cons e rest ih =>
    intro acc hf hext htrash hroot hnodup hacc
    by_cases hd : e.isDir
    · have hskip : visitFile opts e.path e.isDir = .skip := by
        simp [visitFile, hd]
      have hexec : execTask opts acc e = acc := by
        simp [execTask, hskip]
      rw [List.foldl_cons, hexec]
      have hrec := ih acc hf
        (fun x hx => hext x (List.mem_cons_of_mem e hx))
        (fun x hx => htrash x (List.mem_cons_of_mem e hx))
        (fun x hx => hroot x (List.mem_cons_of_mem e hx))
        (by simpa [hd] using hnodup)
        (fun x hx => hacc x (List.mem_cons_of_mem e hx))
      rw [hrec]
      simp [hd]
    · have hdf : e.isDir = false := by simpa using hd
      have hext1 := hext e (List.mem_cons_self e rest) hdf
      have htrash1 := htrash e (List.mem_cons_self e rest) hdf
      have hroot1 := hroot e (List.mem_cons_self e rest) hdf
      have hacc1 := hacc e (List.mem_cons_self e rest) hdf
      have hmedia : IsMediaFile e.path = true := by
        refine (isMediaFile_iff e.path).mpr ?_
        rw [hext1]
        exact validFormat_ext opts.Format hf
      have hvis : visitFile opts e.path e.isDir = .convertTask := by
        rw [hdf]
        simp [visitFile, hroot1, htrash1, hmedia]
      have hexec : execTask opts acc e =
          acc ++ [(e.path, OutData.copied e.data)] := by
        simp [execTask, hvis, ConvertOp, hext1, CopyOp, CopyOpE, hacc1, fsWrite]
      have hnodup2 : e.path ∉ (rest.filterMap
          (fun x => if x.isDir = false then some x.path else none)) ∧
          (rest.filterMap
            (fun x => if x.isDir = false then some x.path else none)).Nodup := by
        rw [List.filterMap_cons] at hnodup
        simp only [hdf, if_true] at hnodup
        exact List.nodup_cons.mp hnodup
      have hacc2 : ∀ x ∈ rest, x.isDir = false →
          fsHas (acc ++ [(e.path, OutData.copied e.data)]) x.path = false := by
        intro x hx hxf
        rw [fsHas_append]
        have h1 := hacc x (List.mem_cons_of_mem e hx) hxf
        have hne : ¬ e.path = x.path := by
          intro heq
          apply hnodup2.1
          rw [heq]
          exact List.mem_filterMap.mpr ⟨x, hx, by simp [hxf]⟩
        rw [h1]
        simp [fsHas, hne]
      have hrec := ih (acc ++ [(e.path, OutData.copied e.data)]) hf
        (fun x hx => hext x (List.mem_cons_of_mem e hx))
        (fun x hx => htrash x (List.mem_cons_of_mem e hx))
        (fun x hx => hroot x (List.mem_cons_of_mem e hx))
        hnodup2.2
        hacc2
      rw [List.foldl_cons, hexec, hrec]
      simp [hdf]

/-- Claim C6 amended: for a validated format equal to the extension of
every file, on a well-formed tree (distinct file paths, no trash files, no
file named like the root), the export equals the pure directory-structure
copy: same mirrored directories and byte-identical copied files at the same
relative paths. -/
theorem claim_C6_amended (opts : EOpts) (entries : List Entry)
    (hf : opts.Format ∈ validFormats)
    (hext : ∀ e ∈ entries, e.isDir = false → goExt e.path = "." ++ opts.Format)
    (htrash : ∀ e ∈ entries, e.isDir = false → IsTrashFile e.path = false)
    (hroot : ∀ e ∈ entries, e.isDir = false → e.path ≠ ".")
    (hnodup : (entries.filterMap
      (fun e => if e.isDir = false then some e.path else none)).Nodup) :
    exportTree opts entries = pureCopy entries := by
  unfold exportTree pureCopy
  have hfiles : exportFiles opts entries = entries.filterMap
      (fun e => if e.isDir = false then some (e.path, OutData.copied e.data)
        else none) := by
    have := exportFiles_go opts entries [] hf hext htrash hroot hnodup
      (fun x _ _ => by simp [fsHas])
    simpa [exportFiles] using this
  rw [hfiles]
  rfl

/-- Concrete well-formed tree for the C6 witness. -/
def c6Entries : List Entry :=
  [⟨".", true, ""⟩, ⟨"a.flac", false, "x"⟩, ⟨"sub", true, ""⟩,
   ⟨"sub/b.flac", false, "y"⟩]

/-- Witness for claim C6 amended on a concrete two-directory tree of flac
files exported as flac. -/
theorem claim_C6_witness :
    exportTree ⟨"flac", true, false⟩ c6Entries = pureCopy c6Entries :=
  claim_C6_amended ⟨"flac", true, false⟩ c6Entries (by decide) (by decide)
    (by decide) (by decide) (by decide)
